import Mathlib

/-!
Shallow embedding of `drf_dynamic_fields/__init__.py` (relique/drf-dynamic-fields).

The whole library is one module: a helper `_to_snake_case` built from two
`re.sub` passes, and `DynamicFieldsMixin.fields`, a property that filters the
serializer's field mapping according to the `fields` and `omit` query
parameters of the current request.

Modelling choices, in order of appearance in the source:

* a serializer field mapping (a DRF `BindingDict`, i.e. an ordered dictionary
  with unique keys mapping field names to field objects) is an association
  list `List (String × Nat)`; the field-definition values are opaque to the
  filtering code, so they are represented by an arbitrary `Nat` tag;
* `re.sub(pattern, repl, s)` scans the string left to right, replacing
  non-overlapping matches and resuming after each match; the two concrete
  patterns of `_to_snake_case` are embedded as first-order recursions over
  the character list (`sub1` for `(.)([A-Z][a-z]+)`, greedy in its `[a-z]+`
  part, and `sub2` for `([a-z0-9])([A-Z])`), followed by `str.lower()`
  restricted to ASCII, which is all the patterns can produce or consume;
* Python `value.split(',')` is `splitComma` (on the empty string it yields a
  list holding one empty string, exactly like Python);
* `hasattr(self, '_context')` failing, and `self.context['request']` raising
  `KeyError`, are the two `Option` layers of the `ctx` argument;
* the request object's two optional attributes `query_params` and `GET` are
  the two `Option Params` fields of `Request`; `getattr(request,
  'query_params', getattr(request, 'GET', None))` is `Option.orElse`;
* `params.get('fields', None).split(',')` raising `AttributeError` (either
  because `params` is `None` or because `get` returned `None`) and being
  caught is the `none` branches of `filterFieldsOf` / `omitFieldsOf`;
* the final loop `for field in existing: if field not in allowed: pop;
  if field in omitted: pop` is `popLoop`, a fold of per-field conditional
  deletions over the key list; `dict.pop(field, None)` deletes the key from
  the mapping (`popKey`).  Python iterates `set(fields.keys())` in an
  unspecified order; `popLoop_eq_filter` below proves the outcome is
  order-independent, so folding over the key list in order is faithful;
* `warnings.warn` and the `SUPPRESS_CONTEXT_WARNING` setting affect only the
  warning side channel, never the returned mapping, so they do not appear in
  the value-level model.
-/

namespace DRFDynamicFields

/-- ASCII uppercase test, `[A-Z]` in the regexes. -/
def isUpperChar (c : Char) : Bool := 65 ≤ c.toNat && c.toNat ≤ 90

/-- ASCII lowercase test, `[a-z]` in the regexes. -/
def isLowerChar (c : Char) : Bool := 97 ≤ c.toNat && c.toNat ≤ 122

/-- ASCII digit test, the `0-9` part of `[a-z0-9]`. -/
def isDigitChar (c : Char) : Bool := 48 ≤ c.toNat && c.toNat ≤ 57

/-- Model of `str.lower()` on one character, restricted to ASCII (the only characters
the surrounding code distinguishes). -/
def toLowerChar (c : Char) : Char :=
  if h : 65 ≤ c.toNat ∧ c.toNat ≤ 90 then
    Char.ofNatAux (c.toNat + 32) (Or.inl (by omega))
  else c

/-- One left-to-right scan of `re.sub('(.)([A-Z][a-z]+)', r'\1_\2', s)`:
at each position try to match any non-newline character, then an uppercase
letter followed by a greedy non-empty lowercase run; on a match emit the
match with an underscore after its first character and resume after the
match; otherwise advance one character.  `fuel` makes the recursion
structural; every step consumes at least one character, so `fuel = length`
never runs out. -/
def sub1Fuel : Nat → List Char → List Char
  | 0, l => l
  | _ + 1, [] => []
  | fuel + 1, c1 :: rest =>
    match rest with
    | [] => [c1]
    | c2 :: rest2 =>
      if c1 ≠ '\n' ∧ isUpperChar c2 ∧ rest2.takeWhile isLowerChar ≠ [] then
        c1 :: '_' :: c2 :: rest2.takeWhile isLowerChar
          ++ sub1Fuel fuel (rest2.dropWhile isLowerChar)
      else
        c1 :: sub1Fuel fuel rest

/-- First substitution pass of `_to_snake_case`. -/
def sub1 (l : List Char) : List Char := sub1Fuel l.length l

/-- Model of `re.sub('([a-z0-9])([A-Z])', r'\1_\2', s)`: insert an underscore between
a lowercase letter or digit and a following uppercase letter, resuming after
each (two-character) match. -/
def sub2 : List Char → List Char
  | [] => []
  | [c] => [c]
  | c1 :: c2 :: rest =>
    if (isLowerChar c1 || isDigitChar c1) && isUpperChar c2 then
      c1 :: '_' :: c2 :: sub2 rest
    else
      c1 :: sub2 (c2 :: rest)

/-- Model of `_to_snake_case(field)`: the two regex substitution passes followed by
`.lower()`. -/
def _to_snake_case (s : String) : String :=
  ⟨(sub2 (sub1 s.data)).map toLowerChar⟩

/-- Python `value.split(',')`: split on every comma, keeping empty pieces;
`''.split(',') == ['']`. -/
def splitCommaAux : List Char → List Char → List String
  | [], acc => [⟨acc.reverse⟩]
  | c :: rest, acc =>
    if c = ',' then (⟨acc.reverse⟩ : String) :: splitCommaAux rest []
    else splitCommaAux rest (c :: acc)

/-- Python `value.split(',')` on a string. -/
def splitComma (s : String) : List String := splitCommaAux s.data []

/-- A serializer field mapping (`super().fields`, a `BindingDict`): an
ordered mapping from field name to an opaque field object. -/
abbrev FieldSet := List (String × Nat)

/-- The query-parameter bag of a request (`request.query_params` or
`request.GET`, a `QueryDict`): a read-only string mapping; `p.get(k, None)`
is application. -/
abbrev Params := String → Option String

/-- The request object as the mixin sees it: it may or may not expose a
`query_params` attribute and may or may not expose a `GET` attribute. -/
structure Request where
  query_params : Option Params
  GET : Option Params

/-- The serializer's place in the response tree, per the source's
classification: `root` is `self.root == self`, `listRootChild` is
`self.parent == self.root and getattr(self.parent, 'many', False)`, and
`nested` is everything else. -/
inductive Position where
  | root
  | listRootChild
  | nested
deriving DecidableEq

/-- Model of `getattr(request, 'query_params', getattr(request, 'GET', None))`. -/
def paramsOf (request : Request) : Option Params :=
  request.query_params <|> request.GET

/-- Model of `try: filter_fields = params.get('fields', None).split(',') except
AttributeError: filter_fields = None`, followed by the in-place snake-case
conversion of each entry.  `none` stands for Python's `None` (no `fields`
parameter, or no parameter bag at all). -/
def filterFieldsOf (params : Option Params) : Option (List String) :=
  match params with
  | none => none
  | some p =>
    match p "fields" with
    | none => none
    | some v => some ((splitComma v).map _to_snake_case)

/-- Model of `try: omit_fields = params.get('omit', None).split(',') except
AttributeError: omit_fields = []`, followed by the in-place snake-case
conversion of each entry. -/
def omitFieldsOf (params : Option Params) : List String :=
  match params with
  | none => []
  | some p =>
    match p "omit" with
    | none => []
    | some v => (splitComma v).map _to_snake_case

/-- Model of `allowed = existing if filter_fields is None else
set(filter(None, filter_fields))`: membership in the resulting set is
membership in the list with empty (falsy) strings dropped. -/
def allowedOf (existing : List String) (filter_fields : Option (List String)) :
    List String :=
  match filter_fields with
  | none => existing
  | some l => l.filter (fun s => !(s == ""))

/-- Model of `omitted = set(filter(None, omit_fields))`. -/
def omittedOf (omit_fields : List String) : List String :=
  omit_fields.filter (fun s => !(s == ""))

/-- Model of `fields.pop(field, None)`: delete the key from the mapping (a dict key
occurs at most once; on an association list, drop every pair with that
key). -/
def popKey (F : FieldSet) (k : String) : FieldSet :=
  F.filter (fun kv => !(kv.1 == k))

/-- One iteration of the final loop: `if field not in allowed:
fields.pop(field, None)` then `if field in omitted: fields.pop(field,
None)`. -/
def fieldStep (allowed omitted : List String) (F : FieldSet) (field : String) :
    FieldSet :=
  let F1 := if !(allowed.contains field) then popKey F field else F
  if omitted.contains field then popKey F1 field else F1

/-- Model of `for field in existing: ...` — the loop of conditional pops.  The source
iterates the set `set(fields.keys())` in unspecified order; the fold is over
the key list, which `popLoop_eq_filter` shows is equivalent. -/
def popLoop (F : FieldSet) (existing allowed omitted : List String) : FieldSet :=
  existing.foldl (fieldStep allowed omitted) F

/-- The body of the property once a request has been found: read the
parameter bag, build `filter_fields` / `omit_fields` / `allowed` /
`omitted`, and run the pop loop over `existing = set(fields.keys())`. -/
def applyFilter (F : FieldSet) (params : Option Params) : FieldSet :=
  popLoop F (F.map Prod.fst)
    (allowedOf (F.map Prod.fst) (filterFieldsOf params))
    (omittedOf (omitFieldsOf params))

/-- Model of `DynamicFieldsMixin.fields`, as a function of the inputs it actually
reads: the base field mapping `F` (`super().fields`), the serializer's
position, and the context.  `ctx = none` is `not hasattr(self, '_context')`;
`ctx = some none` is `self.context['request']` raising `KeyError` (warned
about, unless suppressed, and swallowed); `ctx = some (some request)` is a
reachable request object. -/
def compute_fields (F : FieldSet) (pos : Position) (ctx : Option (Option Request)) :
    FieldSet :=
  match ctx with
  | none => F
  | some context =>
    match pos with
    | Position.nested => F
    | _ =>
      match context with
      | none => F
      | some request => applyFilter F (paramsOf request)

/-- One loop iteration deletes exactly the entries keyed `e` when `e` is
outside `allowed` or inside `omitted`, and touches nothing else. -/
theorem fieldStep_eq (allowed omitted : List String) (F : FieldSet) (e : String) :
    fieldStep allowed omitted F e =
      F.filter (fun kv =>
        !(kv.1 == e) || (allowed.contains e && !(omitted.contains e))) := by
  unfold fieldStep popKey
  cases ha : allowed.contains e <;> cases ho : omitted.contains e <;>
    simp [List.filter_filter]

/-- The pop loop is a filter: an entry survives unless its key occurs in
`existing` and is either not allowed or omitted.  In particular the outcome
does not depend on the iteration order of `existing`. -/
theorem popLoop_eq_filter (existing allowed omitted : List String) (F : FieldSet) :
    popLoop F existing allowed omitted =
      F.filter (fun kv =>
        !(existing.contains kv.1 &&
          (!(allowed.contains kv.1) || omitted.contains kv.1))) := by
  induction existing generalizing F with
  | nil => simp [popLoop]
  | cons e es ih =>
    show popLoop (fieldStep allowed omitted F e) es allowed omitted = _
    rw [ih, fieldStep_eq, List.filter_filter]
    refine List.filter_congr ?_
    intro kv _
    by_cases h : kv.1 = e
    · simp only [h, List.contains_cons, beq_self_eq_true, Bool.true_or,
        Bool.not_true, Bool.false_or, Bool.true_and]
      cases hae : allowed.contains e <;> cases hoe : omitted.contains e <;>
        cases hes : es.contains e <;> simp
    · have hb : (kv.1 == e) = false := beq_eq_false_iff_ne.mpr h
      simp [hb, h, List.contains_cons]

/-- The filtering body as a single filter over the input mapping: an entry
survives when its key is allowed and not omitted (every key of `F` occurs in
`existing`, so the `existing` guard of `popLoop_eq_filter` is vacuous). -/
theorem applyFilter_eq (F : FieldSet) (params : Option Params) :
    applyFilter F params =
      F.filter (fun kv =>
        (allowedOf (F.map Prod.fst) (filterFieldsOf params)).contains kv.1 &&
          !((omittedOf (omitFieldsOf params)).contains kv.1)) := by
  unfold applyFilter
  rw [popLoop_eq_filter]
  refine List.filter_congr ?_
  intro kv hkv
  have hx : (F.map Prod.fst).contains kv.1 = true := by
    simp only [List.contains, List.elem_eq_mem, decide_eq_true_iff]
    exact List.mem_map_of_mem Prod.fst hkv
  simp only [hx, Bool.true_and, Bool.not_or, Bool.not_not]

/-- The allowed name set exactly as the spec phrases it: `F.keys()` when the
`fields` parameter is absent, otherwise the snake_case-normalized comma-split
`fields` value with empty strings discarded. -/
def allowedSpec (F : FieldSet) (p : Params) : List String :=
  match p "fields" with
  | none => F.map Prod.fst
  | some v => ((splitComma v).map _to_snake_case).filter (fun s => !(s == ""))

/-- The omitted name set exactly as the spec phrases it: the
snake_case-normalized comma-split `omit` value with empty strings discarded,
empty when `omit` is absent. -/
def omittedSpec (p : Params) : List String :=
  match p "omit" with
  | none => []
  | some v => ((splitComma v).map _to_snake_case).filter (fun s => !(s == ""))

/-- The source's `allowed` coincides with the spec's description when the
parameter bag is readable. -/
theorem allowedSpec_eq (F : FieldSet) (p : Params) :
    allowedOf (F.map Prod.fst) (filterFieldsOf (some p)) = allowedSpec F p := by
  cases h : p "fields" <;> simp [allowedOf, filterFieldsOf, allowedSpec, h]

/-- The source's `omitted` coincides with the spec's description when the
parameter bag is readable. -/
theorem omittedSpec_eq (p : Params) :
    omittedOf (omitFieldsOf (some p)) = omittedSpec p := by
  cases h : p "omit" <;> simp [omittedOf, omitFieldsOf, omittedSpec, h]

/-- Keys of a key-determined filter of a mapping. -/
theorem mem_keys_filter (F : FieldSet) (q : String → Bool) (f : String) :
    f ∈ (F.filter (fun kv => q kv.1)).map Prod.fst ↔
      f ∈ F.map Prod.fst ∧ q f = true := by
  simp only [List.mem_map, List.mem_filter]
  constructor
  · rintro ⟨kv, ⟨h1, h2⟩, rfl⟩
    exact ⟨⟨kv, h1, rfl⟩, h2⟩
  · rintro ⟨⟨kv, h1, rfl⟩, h2⟩
    exact ⟨kv, ⟨h1, h2⟩, rfl⟩

/-- Key-set characterization of the filtering body against the spec's
`allowed` / `omitted` sets. -/
theorem mem_keys_applyFilter (F : FieldSet) (p : Params) (f : String) :
    f ∈ (applyFilter F (some p)).map Prod.fst ↔
      f ∈ F.map Prod.fst ∧ f ∈ allowedSpec F p ∧ f ∉ omittedSpec p := by
  rw [applyFilter_eq]
  rw [mem_keys_filter F (fun s =>
    (allowedOf (F.map Prod.fst) (filterFieldsOf (some p))).contains s &&
      !((omittedOf (omitFieldsOf (some p))).contains s)) f]
  rw [allowedSpec_eq, omittedSpec_eq]
  simp [and_assoc]

/-- Lower-casing never produces an uppercase ASCII letter. -/
theorem isUpperChar_toLowerChar (c : Char) : isUpperChar (toLowerChar c) = false := by
  unfold toLowerChar
  split
  · rename_i h
    have ht : (Char.ofNatAux (c.toNat + 32) (Or.inl (by omega))).toNat = c.toNat + 32 :=
      rfl
    simp only [isUpperChar, ht]
    have : ¬(c.toNat + 32 ≤ 90) := by omega
    simp [this]
  · rename_i h
    simp only [isUpperChar, Bool.and_eq_false_iff, decide_eq_false_iff_not]
    omega

/-- Lower-casing fixes characters that are not uppercase ASCII letters. -/
theorem toLowerChar_of_not_upper (c : Char) (h : isUpperChar c = false) :
    toLowerChar c = c := by
  have h2 : ¬(65 ≤ c.toNat ∧ c.toNat ≤ 90) := by
    rintro ⟨ha, hb⟩
    have ht : isUpperChar c = true := by simp [isUpperChar, ha, hb]
    rw [ht] at h
    exact Bool.noConfusion h
  rw [toLowerChar, dif_neg h2]

/-- The first substitution pass is the identity on uppercase-free input: its
pattern requires an uppercase letter. -/
theorem sub1Fuel_of_no_upper (fuel : Nat) :
    ∀ l : List Char, (∀ c ∈ l, isUpperChar c = false) → sub1Fuel fuel l = l := by
  induction fuel with
  | zero => intro l _; rfl
  | succ n ih =>
    intro l hl
    match l with
    | [] => rfl
    | [c1] => rfl
    | c1 :: c2 :: rest =>
      have hc2 : isUpperChar c2 = false := hl c2 (by simp)
      have hrest : ∀ c ∈ c2 :: rest, isUpperChar c = false := fun c hc =>
        hl c (List.mem_cons_of_mem _ hc)
      simp only [sub1Fuel, hc2]
      rw [if_neg, ih _ hrest]
      simp [hc2]

/-- The second substitution pass is the identity on uppercase-free input. -/
theorem sub2_of_no_upper :
    ∀ l : List Char, (∀ c ∈ l, isUpperChar c = false) → sub2 l = l
  | [], _ => rfl
  | [_], _ => rfl
  | c1 :: c2 :: rest, hl => by
    have hc2 : isUpperChar c2 = false := hl c2 (by simp)
    have hrest : ∀ c ∈ c2 :: rest, isUpperChar c = false := fun c hc =>
      hl c (List.mem_cons_of_mem _ hc)
    rw [sub2, if_neg (by simp [hc2])]
    rw [sub2_of_no_upper (c2 :: rest) hrest]

/-- Lower-casing is the identity on uppercase-free input. -/
theorem map_toLowerChar_of_no_upper (l : List Char)
    (h : ∀ c ∈ l, isUpperChar c = false) : l.map toLowerChar = l := by
  induction l with
  | nil => rfl
  | cons c cs ih =>
    rw [List.map_cons, toLowerChar_of_not_upper c (h c (by simp)),
      ih fun x hx => h x (List.mem_cons_of_mem _ hx)]

/-- Every character of a `_to_snake_case` result is non-uppercase. -/
theorem to_snake_case_no_upper (s : String) :
    ∀ c ∈ (_to_snake_case s).data, isUpperChar c = false := by
  intro c hc
  unfold _to_snake_case at hc
  simp only [List.mem_map] at hc
  obtain ⟨d, _, rfl⟩ := hc
  exact isUpperChar_toLowerChar d

/-- Keys of the filtering body's output come from the input mapping. -/
theorem keys_applyFilter_subset (F : FieldSet) (params : Option Params) :
    (applyFilter F params).map Prod.fst ⊆ F.map Prod.fst := by
  intro f hf
  rw [applyFilter_eq] at hf
  simp only [List.mem_map, List.mem_filter] at hf ⊢
  obtain ⟨kv, ⟨h1, _⟩, rfl⟩ := hf
  exact ⟨kv, h1, rfl⟩

/-- A key of `F` registers in the `existing` key list. -/
theorem keys_contains_of_mem (F : FieldSet) (kv : String × Nat) (hkv : kv ∈ F) :
    (F.map Prod.fst).contains kv.1 = true := by
  simp only [List.contains, List.elem_eq_mem, decide_eq_true_iff]
  exact List.mem_map_of_mem Prod.fst hkv

/-- With no parameter bag at all, both parameter reads throw
`AttributeError`, both lists degrade, and the loop removes nothing. -/
theorem applyFilter_no_params (F : FieldSet) : applyFilter F none = F := by
  rw [applyFilter_eq]
  apply List.filter_eq_self.mpr
  intro kv hkv
  simp [allowedOf, filterFieldsOf, omitFieldsOf, omittedOf,
    keys_contains_of_mem F kv hkv]
  exact ⟨kv.2, hkv⟩

/-- C1: at position Root or ListRootChild, with a readable parameter bag,
the key set of the returned mapping is exactly the keys of `F` that are in
`allowed` and not in `omitted`, where `allowed` is `F.keys()` when `fields`
is absent and otherwise the snake_case-normalized comma-split `fields` value
with empty strings discarded, and `omitted` is the snake_case-normalized
comma-split `omit` value with empty strings discarded. -/
theorem root_filtering_key_characterization (F : FieldSet) (pos : Position)
    (req : Request) (p : Params) (f : String)
    (hpos : pos = Position.root ∨ pos = Position.listRootChild)
    (hp : paramsOf req = some p) :
    f ∈ (compute_fields F pos (some (some req))).map Prod.fst ↔
      f ∈ F.map Prod.fst ∧ f ∈ allowedSpec F p ∧ f ∉ omittedSpec p := by
  have hcf : compute_fields F pos (some (some req)) = applyFilter F (some p) := by
    rcases hpos with h | h <;> subst h <;> exact congrArg (applyFilter F) hp
  rw [hcf]
  exact mem_keys_applyFilter F p f

/-- C1 witness: `fields="id,name"`, `omit="name"`, `F = {id, name, email}`:
the characterization applies, and the result is `{id}`. -/
theorem root_filtering_key_characterization_witness :
    ("id" ∈ (compute_fields [("id", 1), ("name", 2), ("email", 3)] Position.root
        (some (some ⟨some (fun k => if k = "fields" then some "id,name"
          else if k = "omit" then some "name" else none), none⟩))).map Prod.fst ↔
      "id" ∈ ([("id", 1), ("name", 2), ("email", 3)] : FieldSet).map Prod.fst ∧
        "id" ∈ allowedSpec [("id", 1), ("name", 2), ("email", 3)]
          (fun k => if k = "fields" then some "id,name"
            else if k = "omit" then some "name" else none) ∧
        "id" ∉ omittedSpec (fun k => if k = "fields" then some "id,name"
          else if k = "omit" then some "name" else none)) ∧
    compute_fields [("id", 1), ("name", 2), ("email", 3)] Position.root
        (some (some ⟨some (fun k => if k = "fields" then some "id,name"
          else if k = "omit" then some "name" else none), none⟩)) = [("id", 1)] :=
  ⟨root_filtering_key_characterization _ _ _ _ _ (Or.inl rfl) rfl, by decide⟩

/-- C2: for every input mapping, position and context, the key set of the
result is a subset of the key set of the input; no field is ever added. -/
theorem result_keys_subset (F : FieldSet) (pos : Position)
    (ctx : Option (Option Request)) :
    (compute_fields F pos ctx).map Prod.fst ⊆ F.map Prod.fst := by
  cases ctx with
  | none => exact fun f hf => hf
  | some c =>
    cases c with
    | none => cases pos <;> exact fun f hf => hf
    | some req =>
      cases pos with
      | nested => exact fun f hf => hf
      | root => exact keys_applyFilter_subset F (paramsOf req)
      | listRootChild => exact keys_applyFilter_subset F (paramsOf req)

/-- C2 witness: the subset inclusion at a concrete filtered input. -/
theorem result_keys_subset_witness :
    (compute_fields [("id", 1), ("name", 2)] Position.root
        (some (some ⟨some (fun k => if k = "fields" then some "id" else none),
          none⟩))).map Prod.fst ⊆
      ([("id", 1), ("name", 2)] : FieldSet).map Prod.fst :=
  result_keys_subset [("id", 1), ("name", 2)] Position.root
    (some (some ⟨some (fun k => if k = "fields" then some "id" else none), none⟩))

/-- C3: a nested serializer's mapping is returned unchanged, regardless of
any `fields` or `omit` query parameters in the context. -/
theorem nested_returns_unfiltered (F : FieldSet) (ctx : Option (Option Request)) :
    compute_fields F Position.nested ctx = F := by
  cases ctx with
  | none => rfl
  | some c => rfl

/-- C4: with no context at all, or a context holding no request, the mapping
is returned unchanged at every position. -/
theorem no_request_returns_unfiltered (F : FieldSet) (pos : Position) :
    compute_fields F pos none = F ∧ compute_fields F pos (some none) = F := by
  refine ⟨rfl, ?_⟩
  cases pos <;> rfl

/-- C5: an explicitly empty `fields` parameter removes every field: the
empty string splits to a single empty string, the falsy filter discards it,
and the allowed set is empty. -/
theorem blank_fields_empties (F : FieldSet) (pos : Position) (req : Request)
    (p : Params) (hpos : pos = Position.root ∨ pos = Position.listRootChild)
    (hp : paramsOf req = some p) (hf : p "fields" = some "") :
    compute_fields F pos (some (some req)) = [] := by
  have hcf : compute_fields F pos (some (some req)) = applyFilter F (some p) := by
    rcases hpos with h | h <;> subst h <;> exact congrArg (applyFilter F) hp
  rw [hcf, applyFilter_eq]
  have hallowed : allowedOf (F.map Prod.fst) (filterFieldsOf (some p)) = [] := by
    simp only [filterFieldsOf, hf, allowedOf]
    decide
  rw [hallowed]
  simp

/-- C5 witness: `fields=""` on a concrete two-field mapping yields the empty
mapping. -/
theorem blank_fields_empties_witness :
    compute_fields [("id", 1), ("name", 2)] Position.root
        (some (some ⟨some (fun k => if k = "fields" then some "" else none),
          none⟩)) = [] :=
  blank_fields_empties [("id", 1), ("name", 2)] Position.root
    ⟨some (fun k => if k = "fields" then some "" else none), none⟩
    (fun k => if k = "fields" then some "" else none)
    (Or.inl rfl) rfl (by decide)

/-- C6: candidate names are camelCase-to-snake_case normalized before
matching: `userName` becomes `user_name`, and `fields="userName"` against
`F = {user_name, email}` keeps exactly `user_name`. -/
theorem camel_case_normalized :
    _to_snake_case "userName" = "user_name" ∧
      compute_fields [("user_name", 1), ("email", 2)] Position.root
          (some (some ⟨some (fun k => if k = "fields" then some "userName"
            else none), none⟩)) = [("user_name", 1)] := by
  constructor <;> decide

/-- Applying the filtering body to its own output changes nothing: the
allowed and omitted sets either repeat verbatim or widen to the surviving
key set. -/
theorem applyFilter_idem (F : FieldSet) (params : Option Params) :
    applyFilter (applyFilter F params) params = applyFilter F params := by
  rw [applyFilter_eq (applyFilter F params) params]
  apply List.filter_eq_self.mpr
  intro kv hkv
  have hkv' := hkv
  rw [applyFilter_eq, List.mem_filter, Bool.and_eq_true] at hkv'
  have hA := hkv'.2.1
  have hO := hkv'.2.2
  cases hff : filterFieldsOf params with
  | none =>
    have hk := keys_contains_of_mem (applyFilter F params) kv hkv
    simp only [hff, allowedOf, hk, Bool.true_and]
    exact hO
  | some l =>
    rw [hff] at hA
    simp only [allowedOf] at hA
    simp only [hff, allowedOf]
    rw [hA, Bool.true_and]
    exact hO

/-- C7: the fields operation is idempotent: re-applying it with the same
position and context to its own output returns that output. -/
theorem filtering_idempotent (F : FieldSet) (pos : Position)
    (ctx : Option (Option Request)) :
    compute_fields (compute_fields F pos ctx) pos ctx = compute_fields F pos ctx := by
  cases ctx with
  | none => rfl
  | some c =>
    cases pos with
    | nested => rfl
    | root =>
      cases c with
      | none => rfl
      | some req => exact applyFilter_idem F (paramsOf req)
    | listRootChild =>
      cases c with
      | none => rfl
      | some req => exact applyFilter_idem F (paramsOf req)

/-- C8: no input raises: a request with neither query-parameter attribute
degrades (after a warning) to no filtering at all and returns the full
mapping, and a missing `fields` parameter alone degrades to omit-only
filtering. -/
theorem no_params_degrades_gracefully :
    (∀ (F : FieldSet) (pos : Position) (req : Request),
        req.query_params = none → req.GET = none →
        compute_fields F pos (some (some req)) = F) ∧
      (∀ (F : FieldSet) (req : Request) (p : Params),
        paramsOf req = some p → p "fields" = none →
        compute_fields F Position.root (some (some req)) =
          F.filter (fun kv => !((omittedSpec p).contains kv.1))) := by
  constructor
  · intro F pos req hq hg
    have hparams : paramsOf req = none := by
      simp [paramsOf, hq, hg]
    cases pos with
    | nested => rfl
    | root =>
      show applyFilter F (paramsOf req) = F
      rw [hparams]
      exact applyFilter_no_params F
    | listRootChild =>
      show applyFilter F (paramsOf req) = F
      rw [hparams]
      exact applyFilter_no_params F
  · intro F req p hp hf
    have hcf : compute_fields F Position.root (some (some req)) =
        applyFilter F (some p) := congrArg (applyFilter F) hp
    rw [hcf, applyFilter_eq]
    refine List.filter_congr ?_
    intro kv hkv
    have hffn : filterFieldsOf (some p) = none := by
      simp [filterFieldsOf, hf]
    simp only [hffn, allowedOf, keys_contains_of_mem F kv hkv, Bool.true_and,
      omittedSpec_eq]

/-- C8 witness: a bag-less request returns the mapping whole, and a missing
`fields` parameter filters by `omit` alone. -/
theorem no_params_degrades_gracefully_witness :
    compute_fields [("id", 1)] Position.root (some (some ⟨none, none⟩)) =
        [("id", 1)] ∧
      compute_fields [("id", 1), ("name", 2)] Position.root
          (some (some ⟨some (fun k => if k = "omit" then some "name" else none),
            none⟩)) =
        ([("id", 1), ("name", 2)] : FieldSet).filter
          (fun kv => !((omittedSpec
            (fun k => if k = "omit" then some "name" else none)).contains kv.1)) :=
  ⟨no_params_degrades_gracefully.1 [("id", 1)] Position.root ⟨none, none⟩ rfl rfl,
    no_params_degrades_gracefully.2 [("id", 1), ("name", 2)]
      ⟨some (fun k => if k = "omit" then some "name" else none), none⟩
      (fun k => if k = "omit" then some "name" else none) rfl (by decide)⟩

/-- C9: the two query-parameter access paths agree: a bag exposed under
`query_params` produces the same result as the same bag exposed only under
`GET`. -/
theorem query_params_GET_equivalent (F : FieldSet) (pos : Position)
    (M : Params) (g : Option Params) :
    compute_fields F pos (some (some ⟨some M, g⟩)) =
      compute_fields F pos (some (some ⟨none, some M⟩)) := by
  cases pos <;> rfl

/-- C10: `_to_snake_case` output has no uppercase ASCII letters, so the
conversion is idempotent: converting its own output returns it unchanged. -/
theorem snake_case_idempotent (s : String) :
    ((_to_snake_case s).data.all fun c => !(isUpperChar c)) = true ∧
      _to_snake_case (_to_snake_case s) = _to_snake_case s := by
  have hno : ∀ c ∈ (_to_snake_case s).data, isUpperChar c = false :=
    to_snake_case_no_upper s
  constructor
  · rw [List.all_eq_true]
    intro c hc
    rw [hno c hc]
    rfl
  · show (⟨(sub2 (sub1 (_to_snake_case s).data)).map toLowerChar⟩ : String) = _
    rw [sub1, sub1Fuel_of_no_upper _ _ hno, sub2_of_no_upper _ hno,
      map_toLowerChar_of_no_upper _ hno]

end DRFDynamicFields
